import Mathlib

/-!
Verification development for the goman man-page parsing library
(github.com/enferex/goman).  The definitions below are a shallow
embedding of the final revision of goman.go (the revision whose API the
checked-in unit test goman_test.go compiles against): strings are lists
of characters, byte offsets are naturals, and the two partial spots of
the Go code (string slicing that can panic) are modelled with Option,
none standing for a runtime panic.

Regular expressions of the source are compiled with Go's
regexp.MustCompilePOSIX, under which the anchor matches at the start of
the text and after every newline; the scanners below implement exactly
that semantics.  Go's strings.TrimSpace trims ASCII whitespace (the
inputs of interest are ASCII).  Loop style iteration of the source is
modelled with an explicit fuel argument; every loop advances its scan
offset by at least one position per step and offsets are bounded by the
document length, so a fuel of length + 1 is never exhausted.
-/

namespace Goman

/-- Shorthand turning a string literal into the character list the embedding works on. -/
def str (s : String) : List Char := s.toList

/-- ASCII uppercase test, the character class of the macro regexes. -/
def isUpperAZ (c : Char) : Bool := decide ('A' ≤ c) && decide (c ≤ 'Z')

/-- ASCII whitespace, the set Go's strings.TrimSpace trims on ASCII input. -/
def isSpaceGo (c : Char) : Bool :=
  decide (c = ' ') || decide (c = '\t') || decide (c = '\n') ||
  decide (c = '\x0B') || decide (c = '\x0C') || decide (c = '\x0D')

/-- Length of the leading run of ASCII uppercase characters. -/
def upRun : List Char → Nat
  | [] => 0
  | c :: r => if isUpperAZ c then upRun r + 1 else 0

/-- Length of the leading run of space characters. -/
def spacesLen : List Char → Nat
  | [] => 0
  | c :: r => if c = ' ' then spacesLen r + 1 else 0

/-- Index of the first occurrence of a character, as Go's strings.Index for a one character needle. -/
def idxOf (c : Char) : List Char → Option Nat
  | [] => none
  | a :: r => if a = c then some 0 else (idxOf c r).map (· + 1)

/-- Index of the first character of the cutset, as Go's strings.IndexAny. -/
def idxOfAny (cs : List Char) : List Char → Option Nat
  | [] => none
  | a :: r => if cs.contains a then some 0 else (idxOfAny cs r).map (· + 1)

/-- Go's strings.TrimLeft with a cutset: drop leading characters of the set. -/
def trimLeftIn (cs : List Char) (s : List Char) : List Char :=
  s.dropWhile (fun a => cs.contains a)

/-- Go's strings.TrimRight with a cutset: drop trailing characters of the set. -/
def trimRightIn (cs : List Char) : List Char → List Char
  | [] => []
  | a :: r =>
    match trimRightIn cs r with
    | [] => if cs.contains a then [] else [a]
    | b :: t => a :: b :: t

/-- Go's strings.Trim with the single space cutset, used on option descriptions. -/
def trimBothSpace (s : List Char) : List Char :=
  trimRightIn [' '] (trimLeftIn [' '] s)

/-- The whitespace cutset of Go's strings.TrimSpace, restricted to ASCII. -/
def wsChars : List Char := [' ', '\t', '\n', '\x0B', '\x0C', '\x0D']

/-- Go's strings.TrimSpace on ASCII text. -/
def trimSpace (s : List Char) : List Char :=
  trimRightIn wsChars (trimLeftIn wsChars s)

/-- Go's strings.Split on a one character separator: n separators yield n plus one pieces. -/
def splitOnChar (sep : Char) : List Char → List (List Char)
  | [] => [[]]
  | c :: r =>
    if c = sep then [] :: splitOnChar sep r
    else
      match splitOnChar sep r with
      | [] => [[c]]
      | l :: ls => (c :: l) :: ls

/-- Split on newlines, the line view used by the option collector and the macro stripper. -/
def splitOnNl (s : List Char) : List (List Char) := splitOnChar '\n' s

/-- Rejoin lines with newlines, inverse of splitOnNl. -/
def joinLines : List (List Char) → List Char
  | [] => []
  | [l] => l
  | l :: l2 :: ls => l ++ '\n' :: joinLines (l2 :: ls)

/-- The macro kinds goman recognizes, plus the catch all for names outside the table
(Go maps a missing key to the zero value, the blank first enumerator). -/
inductive MacroType
  | unrecognized
  | B
  | IP
  | PP
  | SH
  | TP
deriving DecidableEq, Repr

/-- Lookup in the MacroTypes table of the source; unknown names give the zero value. -/
def macroTypeOf (name : List Char) : MacroType :=
  if name = ['B'] then .B
  else if name = ['I', 'P'] then .IP
  else if name = ['P', 'P'] then .PP
  else if name = ['S', 'H'] then .SH
  else if name = ['T', 'P'] then .TP
  else .unrecognized

/-- A located roff macro: the half open byte range of the regex match and its kind,
mirroring the Macro struct (loc holds start and end offsets). -/
structure Macro where
  loc : Nat × Nat
  mtype : MacroType
deriving DecidableEq, Repr

/-- An option parsed from the page, mirroring the Opt struct. -/
structure Opt where
  Name : List Char
  Desc : List Char
deriving DecidableEq, Repr

/-- The ManPage record of the source: parsed fields, the source path, the
normalized document text and the ordered option list. -/
structure ManPage where
  Name : List Char
  Path : List Char
  Desc : List Char
  Synopsis : List Char
  data : List Char
  Opts : List Opt
deriving DecidableEq, Repr

/-- Match of the macro head regex (a dot, one or more uppercase letters, one space)
against the start of the text: the matched length, none when there is no match.
This is the suffix of the pattern after the dot and the first letter. -/
def azSpaceLen : List Char → Option Nat
  | [] => none
  | c :: r =>
    if isUpperAZ c then (azSpaceLen r).map (· + 1)
    else if c = ' ' then some 1
    else none

/-- Leftmost longest match of the pattern dot, uppercase run, space at the head of the text. -/
def matchMacroHead : List Char → Option Nat
  | a :: c :: r =>
    if a = '.' then (if isUpperAZ c then (azSpaceLen r).map (· + 2) else none)
    else none
  | _ => none

/-- Forward scan for the first anchored match: positions are tried in order, a
position qualifies when it is the start of the text or follows a newline, exactly
the multiline anchor of MustCompilePOSIX.  Returns the match position and length. -/
def scanLines (p : List Char → Option Nat) : Nat → Bool → List Char → Option (Nat × Nat)
  | _, _, [] => none
  | pos, atStart, c :: r =>
    if atStart then
      match p (c :: r) with
      | some len => some (pos, len)
      | none => scanLines p (pos + 1) (decide (c = '\n')) r
    else scanLines p (pos + 1) (decide (c = '\n')) r

/-- The nextMacroOffset method: run the macro regex over the suffix of the document
starting at the offset; on a match build the Macro from the absolute range and the
name between the dot and the space. -/
def nextMacroOffset (d : List Char) (offset : Nat) : Option Macro :=
  match scanLines matchMacroHead 0 true (d.drop offset) with
  | none => none
  | some (j, len) =>
    some { loc := (offset + j, offset + j + len),
           mtype := macroTypeOf ((d.drop (offset + j + 1)).take (len - 2)) }

/-- The nextMacro method: scan on from the end offset of the previous macro. -/
def nextMacro (d : List Char) (m : Macro) : Option Macro :=
  nextMacroOffset d m.loc.2

/-- Whether the pattern list is a leading piece of the text. -/
def leadsWith : List Char → List Char → Bool
  | [], _ => true
  | _ :: _, [] => false
  | a :: r, b :: t => decide (a = b) && leadsWith r t

/-- Longest alternative of the name list matching at the head of the text, the
POSIX longest rule for the alternation group of the section regex. -/
def longestAltLen (names : List (List Char)) (r : List Char) : Option Nat :=
  match names with
  | [] => none
  | n1 :: rest =>
    match longestAltLen rest r with
    | none => if leadsWith n1 r then some n1.length else none
    | some b =>
      if leadsWith n1 r then (if b < n1.length then some n1.length else some b)
      else some b

/-- Match of the section heading regex at the head of the text: a dot, S, H, any
number of spaces, then one of the section name alternatives.  Returns the match length. -/
def matchSH (names : List (List Char)) (s : List Char) : Option Nat :=
  match s with
  | a :: b :: c :: r =>
    if a = '.' ∧ b = 'S' ∧ c = 'H' then
      match longestAltLen names (r.drop (spacesLen r)) with
      | some alen => some (3 + spacesLen r + alen)
      | none => none
    else none
  | _ => none

/-- The findSection method: leftmost match of the section heading regex over the
whole document, returning the offset just past the match; none models the
ParseError return value. -/
def findSection (d : List Char) (names : List (List Char)) : Option Nat :=
  match scanLines (matchSH names) 0 true d with
  | none => none
  | some (i, len) => some (i + len)

/-- Length of the leading macro token of a line: a dot, at least one uppercase
letter, then any number of spaces; the per position match of the stripping regex. -/
def macroTokLen : List Char → Option Nat
  | [] => none
  | a :: r =>
    if a = '.' then
      (if upRun r = 0 then none
       else some (1 + upRun r + spacesLen (r.drop (upRun r))))
    else none

/-- One pass of ReplaceAllString with the token regex and the empty replacement:
scan left to right, at a line start drop a matching token and resume just past it
(mid line, so no further match before the next newline), elsewhere copy.  Each
step consumes at least one character, so the fuel of stripMacros is never exhausted. -/
def stripScan : Nat → Bool → List Char → List Char
  | 0, _, s => s
  | _ + 1, _, [] => []
  | fuel + 1, atStart, c :: r =>
    if atStart then
      match macroTokLen (c :: r) with
      | some n => stripScan fuel false ((c :: r).drop n)
      | none => c :: stripScan fuel (decide (c = '\n')) r
    else c :: stripScan fuel (decide (c = '\n')) r

/-- The stripmacros helper: remove every line leading macro token from the text. -/
def stripMacros (s : List Char) : List Char := stripScan (s.length + 1) true s

/-- The section bounding loop of getSection: iterate macros from the offset until
one of kind SH appears (returning its start) or the scan is exhausted (none).
Each step moves the offset past a nonempty match, so fuel length + 1 suffices. -/
def sectionStop (d : List Char) : Nat → Nat → Option Nat
  | 0, _ => none
  | fuel + 1, offset =>
    match nextMacroOffset d offset with
    | none => none
    | some mc => if mc.mtype = .SH then some mc.loc.1 else sectionStop d fuel mc.loc.2

/-- The getSection method: locate the heading, slice up to the next SH macro or the
end of the document, strip macro tokens and trim; the N A sentinel when the
heading is absent. -/
def getSection (d : List Char) (names : List (List Char)) : List Char :=
  match findSection d names with
  | none => trimSpace (str "N/A")
  | some start =>
    match sectionStop d (d.length + 1) start with
    | none => trimSpace (stripMacros (d.drop start))
    | some stop => trimSpace (stripMacros ((d.drop start).take (stop - start)))

/-- The name computation of parseName: first space separated token of the NAME
section, with trailing space, backslash and comma artifacts trimmed. -/
def nameOfData (d : List Char) : List Char :=
  trimRightIn [' ', '\\', ','] ((splitOnChar ' ' (getSection d [str "NAME"])).headD [])

/-- The parseName method. -/
def parseName (m : ManPage) : ManPage := { m with Name := nameOfData m.data }

/-- The parseDesc method. -/
def parseDesc (m : ManPage) : ManPage :=
  { m with Desc := getSection m.data [str "DESCRIPTION"] }

/-- The parseSynopsis method. -/
def parseSynopsis (m : ManPage) : ManPage :=
  { m with Synopsis := getSection m.data [str "SYNOPSIS"] }

/-- The per entry line collection of parseOpts: walk the line list, stop at an
empty line or at a line starting with a dot, otherwise append a space and the line. -/
def collectOpt : List (List Char) → List Char
  | [] => []
  | [] :: _ => []
  | (c :: l) :: rest =>
    if c = '.' then [] else (' ' :: c :: l) ++ collectOpt rest

/-- The option extraction of one entry from its collected, left trimmed text.
Go computes the whitespace index spc relative to the slice starting at the dash
but then slices opt with idx and spc as absolute bounds; the slice expression
panics when idx exceeds spc, modelled as none.  some none is an entry that
yields no option, some (some o) an emitted option. -/
def optFromEntry (opt : List Char) : Option (Option Opt) :=
  match idxOf '-' opt with
  | none => some none
  | some idx =>
    match idxOfAny ['\x0D', ' '] (opt.drop idx) with
    | none => some none
    | some rel =>
      if idx ≤ rel + 1 then
        some (some { Name := (opt.drop idx).take (rel + 1 - idx),
                     Desc := trimBothSpace (opt.drop (rel + 1)) })
      else none

/-- The macro walking loop of parseOpts: stop at an SH macro or at a macro that is
neither B nor IP; for a B or IP macro collect the entry text, left trim it, and
append the extracted option, threading the accumulated option list as the Go
code appends to the Opts field.  none propagates the slice panic of optFromEntry. -/
def parseOptsLoop (d : List Char) : Nat → Nat → List Opt → Option (List Opt)
  | 0, _, acc => some acc
  | fuel + 1, offset, acc =>
    match nextMacroOffset d offset with
    | none => some acc
    | some mc =>
      if mc.mtype = .SH then some acc
      else if ¬(mc.mtype = .B ∨ mc.mtype = .IP) then some acc
      else
        match optFromEntry (trimLeftIn [' '] (collectOpt (splitOnNl (d.drop mc.loc.2)))) with
        | none => none
        | some none => parseOptsLoop d fuel mc.loc.2 acc
        | some (some o) => parseOptsLoop d fuel mc.loc.2 (acc ++ [o])

/-- The heading lookup of parseOpts: the OPTIONS or SWITCHES section, else the
DESCRIPTION section, else give up. -/
def optSectionIdx (d : List Char) : Option Nat :=
  match findSection d [str "OPTIONS", str "SWITCHES"] with
  | some idx => some idx
  | none => findSection d [str "DESCRIPTION"]

/-- The parseOpts method on the record: run the loop from the located heading,
starting from the Opts the record already holds (Go appends to m.Opts). -/
def parseOpts (m : ManPage) : Option ManPage :=
  match optSectionIdx m.data with
  | none => some m
  | some idx =>
    (parseOptsLoop m.data (m.data.length + 1) idx m.Opts).map
      (fun ops => { m with Opts := ops })

/-- The options a single run over a document emits: the loop started from an empty
accumulator; the list is empty when no usable heading exists. -/
def optsOf (d : List Char) : Option (List Opt) :=
  match optSectionIdx d with
  | none => some []
  | some idx => parseOptsLoop d (d.length + 1) idx []

/-- The carriage return removal of parse (strings.NewReplacer with the empty replacement). -/
def normalizeCR (s : List Char) : List Char := s.filter (fun c => !(c = '\x0D' : Bool))

/-- The parse method: normalize line endings into the data field, then run the
name, description, synopsis and option parsers in order; none models the panic
reachable inside parseOpts. -/
def parse (m : ManPage) (d : List Char) : Option ManPage :=
  parseOpts (parseSynopsis (parseDesc (parseName { m with data := normalizeCR d })))

/-! Claim side definitions: these follow the words of the specification, for
comparison with the definitions above that follow the source. -/

/-- The body slice of a located section as the spec describes it: from the
section start up to the start of the next SH macro found by iteration, or to
the end of the document. -/
def sectionSlice (d : List Char) (start : Nat) : List Char :=
  match sectionStop d (d.length + 1) start with
  | none => d.drop start
  | some stop => (d.drop start).take (stop - start)

/-- Removal of the leading macro token of one line, what ReplaceAllString with
the token pattern does to a line in which the pattern matches. -/
def stripTok (l : List Char) : List Char :=
  match macroTokLen l with
  | some n => l.drop n
  | none => l

/-- Macro stripping as the claim words it: every line matching the macro line
pattern is removed entirely, not just its macro token. -/
def stripLinesWhole (s : List Char) : List Char :=
  joinLines ((splitOnNl s).filter (fun l => (macroTokLen l).isNone))

/-- Section lookup as the claim words it: the same leftmost heading match, but
returning the offset immediately after the matched heading line, that is just
past the newline that ends it (or the end of the document). -/
def findSectionLineSpec (d : List Char) (names : List (List Char)) : Option Nat :=
  match scanLines (matchSH names) 0 true d with
  | none => none
  | some (i, _) =>
    match idxOf '\n' (d.drop i) with
    | none => some d.length
    | some k => some (i + k + 1)

/-- A position at which the multiline anchor of the POSIX regexes matches:
the start of the text or just after a newline. -/
def lineStartAt (d : List Char) (k : Nat) : Prop :=
  k = 0 ∨ ∃ k0, k = k0 + 1 ∧ d.get? k0 = some '\n'

/-! Helper lemmas. -/

theorem splitOnChar_headD (sep : Char) :
    ∀ s : List Char, (splitOnChar sep s).headD [] = s.takeWhile (fun c => !decide (c = sep)) := by
  intro s
  induction s with
  | nil => rfl
  | cons c r ih =>
    by_cases h : c = sep
    · simp [splitOnChar, h, List.takeWhile]
    · have hrhs : (c :: r).takeWhile (fun c2 => !decide (c2 = sep)) =
          c :: r.takeWhile (fun c2 => !decide (c2 = sep)) := by
        simp [List.takeWhile_cons, h]
      rw [hrhs]
      unfold splitOnChar
      rw [if_neg h]
      cases hs : splitOnChar sep r with
      | nil =>
        rw [hs] at ih
        simp only [List.headD] at ih ⊢
        rw [← ih]
      | cons l ls =>
        rw [hs] at ih
        simp only [List.headD] at ih ⊢
        rw [← ih]

/-! Claim C1. -/

/-- Fresh record for the C1 evaluation. -/
def mpC1 : ManPage := { Name := [], Path := [], Desc := [], Synopsis := [], data := [], Opts := [] }

/-- Document exhibiting the parse panic for claim C1: the first dash of the
collected entry text sits at index three, past the whitespace index the code
misuses as an absolute slice bound. -/
def dC1 : List Char := str ".SH OPTIONS\n.B ab - x\n"

/-- Claim C1: the claim says parse completes without raising an error on every
document; on this document the option parser evaluates the Go slice expression
with a lower bound above its upper bound and panics, so parse does not complete. -/
theorem C1_parse_panics : parse mpC1 dC1 = none := by decide

/-! Claim C2. -/

/-- Document for claim C2: a plain dash entry, the dash at index zero of the
trimmed entry text. -/
def dC2 : List Char := str ".SH OPTIONS\n.B -q q is an option\n"

/-- Claim C2: the claim says the emitted token is the substring from the first
dash up to but excluding the first following whitespace; the code instead ends
the token at the whitespace index measured from the dash and used absolutely,
so here the token carries the terminating space. -/
theorem C2_token_includes_whitespace :
    optsOf dC2 = some [{ Name := str "-q ", Desc := str "q is an option" }] ∧
    ¬(str "-q " = str "-q") := by decide

/-! Claim C4. -/

/-- Claim C4, amended: getSection returns the sentinel whenever findSection
fails for that name (the converse direction of the claimed equivalence does not
hold, see the counterexample). -/
theorem C4_na_when_notfound :
    ∀ (d : List Char) (names : List (List Char)),
      findSection d names = none → getSection d names = str "N/A" := by
  intro d names h
  simp [getSection, h]
  decide

/-- Witness for claim C4 at a document with no heading at all. -/
theorem C4_witness : getSection (str "hello") [str "NAME"] = str "N/A" :=
  C4_na_when_notfound (str "hello") [str "NAME"] (by decide)

/-- Document for the C4 counterexample: a located NAME section whose body is
the literal sentinel text. -/
def dC4 : List Char := str ".SH NAME\nN/A\n"

/-- Counterexample for claim C4: getSection yields the sentinel although
findSection succeeds, refuting the claimed if and only if. -/
theorem C4_counterexample :
    getSection dC4 [str "NAME"] = str "N/A" ∧ ¬(findSection dC4 [str "NAME"] = none) := by
  decide

/-! Claim C5. -/

/-- Claim C5: in the per entry line collection a zero length line terminates the
collection exactly like a macro line does, wherever it occurs, and the lines
after it never influence the result. -/
theorem C5_empty_line_terminates :
    (∀ rest : List (List Char), collectOpt ([] :: rest) = []) ∧
    ∀ (pre post post2 : List (List Char)) (cs : List Char),
      collectOpt (pre ++ [] :: post) = collectOpt (pre ++ ('.' :: cs) :: post2) := by
  constructor
  · intro rest; rfl
  · intro pre post post2 cs
    induction pre with
    | nil => simp [collectOpt]
    | cons p pre ih =>
      cases p with
      | nil => rfl
      | cons c l =>
        by_cases h : c = '.'
        · simp [collectOpt, h]
        · simp [collectOpt, h, ih]

/-- Witness for claim C5 at a concrete line list: the entry text collected up to
an empty line equals the one collected up to a macro line. -/
theorem C5_witness :
    collectOpt ([str "ab"] ++ [] :: [str "y"]) =
      collectOpt ([str "ab"] ++ ('.' :: str "TP") :: []) :=
  C5_empty_line_terminates.2 [str "ab"] [str "y"] [] (str "TP")

/-! Claim C7. -/

/-- Claim C7, amended: parseName takes the first space separated token of the
NAME section body and trims trailing space, backslash and comma characters; the
claimed example needs its alias separator followed by a space for anything to be
trimmed (see the counterexample for the spaceless form). -/
theorem C7_first_token_trim :
    ∀ m : ManPage,
      (parseName m).Name =
        trimRightIn [' ', '\\', ',']
          ((getSection m.data [str "NAME"]).takeWhile (fun c => !decide (c = ' '))) := by
  intro m
  show trimRightIn [' ', '\\', ','] ((splitOnChar ' ' _).headD []) = _
  rw [splitOnChar_headD]

/-- Record for the C7 witness, a NAME line with the escape comma followed by a space. -/
def mpC7w : ManPage :=
  { Name := [], Path := [], Desc := [], Synopsis := [],
    data := str ".SH NAME\nfoo\\, bar \\- x\n", Opts := [] }

/-- Witness for claim C7: the alias list form yields the bare program name. -/
theorem C7_witness : (parseName mpC7w).Name = str "foo" :=
  (C7_first_token_trim mpC7w).trans (by decide)

/-- Record for the C7 counterexample, the NAME line of the claim with no space. -/
def mpC7 : ManPage :=
  { Name := [], Path := [], Desc := [], Synopsis := [],
    data := str ".SH NAME\nfoo\\,bar\n", Opts := [] }

/-- Counterexample for claim C7: on the NAME line of the claim the trailing trim
has nothing to remove, so the name keeps the escape and the alias. -/
theorem C7_counterexample :
    (parseName mpC7).Name = str "foo\\,bar" ∧ ¬((parseName mpC7).Name = str "foo") := by
  decide

/-! Claim C6: shape lemmas for the macro scanner. -/

theorem azSpaceLen_bounds :
    ∀ (s : List Char) (n : Nat), azSpaceLen s = some n → 1 ≤ n ∧ n ≤ s.length := by
  intro s
  induction s with
  | nil => intro n h; simp [azSpaceLen] at h
  | cons c r ih =>
    intro n h
    unfold azSpaceLen at h
    by_cases hc : isUpperAZ c
    · rw [if_pos hc] at h
      cases hr : azSpaceLen r with
      | none => rw [hr] at h; simp at h
      | some n2 =>
        rw [hr] at h
        simp at h
        have := ih n2 hr
        simp [List.length_cons]
        omega
    · rw [if_neg hc] at h
      by_cases hsp : c = ' '
      · rw [if_pos hsp] at h
        simp at h
        simp [← h, List.length_cons]
      · rw [if_neg hsp] at h
        simp at h

theorem matchMacroHead_bounds :
    ∀ (s : List Char) (len : Nat), matchMacroHead s = some len → 3 ≤ len ∧ len ≤ s.length := by
  intro s len h
  cases s with
  | nil => simp [matchMacroHead] at h
  | cons a t =>
    cases t with
    | nil => simp [matchMacroHead] at h
    | cons c r =>
      have h2 : (if a = '.' then
          (if isUpperAZ c then (azSpaceLen r).map (· + 2) else none)
          else none) = some len := h
      clear h
      by_cases ha : a = '.'
      · rw [if_pos ha] at h2
        by_cases hc : isUpperAZ c
        · rw [if_pos hc] at h2
          cases hr : azSpaceLen r with
          | none => rw [hr] at h2; simp at h2
          | some n2 =>
            rw [hr] at h2
            simp at h2
            have := azSpaceLen_bounds r n2 hr
            simp [List.length_cons]
            omega
        · rw [if_neg hc] at h2; simp at h2
      · rw [if_neg ha] at h2
        simp at h2

theorem scanLines_some_shape (p : List Char → Option Nat) :
    ∀ (s : List Char) (pos : Nat) (b : Bool) (i len : Nat),
      scanLines p pos b s = some (i, len) →
      ∃ k, i = pos + k ∧ p (s.drop k) = some len := by
  intro s
  induction s with
  | nil => intro pos b i len h; simp [scanLines] at h
  | cons c r ih =>
    intro pos b i len h
    unfold scanLines at h
    cases b with
    | false =>
      simp only [Bool.false_eq_true, if_false] at h
      obtain ⟨k, hk, hp⟩ := ih (pos + 1) (decide (c = '\n')) i len h
      exact ⟨k + 1, by omega, by simpa using hp⟩
    | true =>
      simp only [if_true] at h
      cases hp : p (c :: r) with
      | some len2 =>
        rw [hp] at h
        simp at h
        exact ⟨0, by omega, by simp [hp, h.2]⟩
      | none =>
        rw [hp] at h
        obtain ⟨k, hk, hp2⟩ := ih (pos + 1) (decide (c = '\n')) i len h
        exact ⟨k + 1, by omega, by simpa using hp2⟩

theorem nextMacroOffset_shape :
    ∀ (d : List Char) (o : Nat) (m : Macro), nextMacroOffset d o = some m →
      o ≤ m.loc.1 ∧ m.loc.1 + 3 ≤ m.loc.2 ∧ m.loc.2 ≤ d.length := by
  intro d o m h
  unfold nextMacroOffset at h
  cases hscan : scanLines matchMacroHead 0 true (d.drop o) with
  | none => rw [hscan] at h; simp at h
  | some pr =>
    obtain ⟨j, len⟩ := pr
    rw [hscan] at h
    simp only [Option.some.injEq] at h
    obtain ⟨k, hk, hp⟩ := scanLines_some_shape matchMacroHead (d.drop o) 0 true j len hscan
    have hb := matchMacroHead_bounds _ _ hp
    have hlen : ((d.drop o).drop k).length = d.length - o - k := by
      simp [List.length_drop]
      omega
    rw [← h]
    simp only []
    constructor
    · omega
    constructor
    · omega
    · omega

/-- Claim C6: the companion iteration step is by definition the scan from the end
offset of the previous macro; each scanned macro starts no earlier than the scan
offset and spans at least three characters inside the document, so repeated
steps produce strictly increasing start and end offsets. -/
theorem C6_macro_iteration :
    ∀ (d : List Char) (o : Nat) (m : Macro), nextMacroOffset d o = some m →
      nextMacro d m = nextMacroOffset d m.loc.2 ∧
      o ≤ m.loc.1 ∧ m.loc.1 + 3 ≤ m.loc.2 ∧ m.loc.2 ≤ d.length ∧
      ∀ m2 : Macro, nextMacro d m = some m2 →
        m.loc.2 ≤ m2.loc.1 ∧ m.loc.1 < m2.loc.1 ∧ m.loc.2 < m2.loc.2 := by
  intro d o m h
  have hs := nextMacroOffset_shape d o m h
  refine ⟨rfl, hs.1, hs.2.1, hs.2.2, ?_⟩
  intro m2 h2
  have hs2 := nextMacroOffset_shape d m.loc.2 m2 h2
  exact ⟨hs2.1, by omega, by omega⟩

/-- Document for the C6 witness. -/
def dC6 : List Char := str ".B x\n.IP y\n"

/-- First scanned macro of the C6 witness document. -/
def mC6 : Macro := { loc := (0, 3), mtype := .B }

/-- Second scanned macro of the C6 witness document. -/
def mC6b : Macro := { loc := (5, 9), mtype := .IP }

/-- Witness for claim C6 on a concrete two macro document. -/
theorem C6_witness :
    mC6.loc.2 ≤ mC6b.loc.1 ∧ mC6.loc.1 < mC6b.loc.1 ∧ mC6.loc.2 < mC6b.loc.2 :=
  (C6_macro_iteration dC6 0 mC6 (by decide)).2.2.2.2 mC6b (by decide)

/-! Claim C9: invariants of the emitted options. -/

theorem idxOf_drop_head :
    ∀ (c : Char) (s : List Char) (i : Nat), idxOf c s = some i → (s.drop i).head? = some c := by
  intro c s
  induction s with
  | nil => intro i h; simp [idxOf] at h
  | cons a r ih =>
    intro i h
    unfold idxOf at h
    by_cases ha : a = c
    · rw [if_pos ha] at h
      simp at h
      simp [← h, ha]
    · rw [if_neg ha] at h
      cases hr : idxOf c r with
      | none => rw [hr] at h; simp at h
      | some i2 =>
        rw [hr] at h
        simp at h
        rw [← h]
        simpa using ih i2 hr

theorem take_succ_head :
    ∀ (l : List Char) (n : Nat), (l.take (n + 1)).head? = l.head? := by
  intro l n
  cases l with
  | nil => simp
  | cons a r => simp

theorem trimLeftIn_head_notin :
    ∀ (cs s : List Char) (a : Char), (trimLeftIn cs s).head? = some a → cs.contains a = false := by
  intro cs s
  induction s with
  | nil => intro a h; simp [trimLeftIn] at h
  | cons b r ih =>
    intro a h
    by_cases hb : cs.contains b
    · rw [trimLeftIn, List.dropWhile_cons_of_pos (by simpa using hb)] at h
      exact ih a h
    · rw [trimLeftIn, List.dropWhile_cons_of_neg (by simpa using hb)] at h
      simp at h
      rw [← h]
      simpa using hb

theorem trimRightIn_head_keeps :
    ∀ (cs s : List Char) (a : Char), (trimRightIn cs s).head? = some a → s.head? = some a := by
  intro cs s a h
  cases s with
  | nil => simp [trimRightIn] at h
  | cons b r =>
    unfold trimRightIn at h
    cases ht : trimRightIn cs r with
    | nil =>
      rw [ht] at h
      by_cases hb : cs.contains b
      · rw [if_pos hb] at h; simp at h
      · rw [if_neg hb] at h; simpa using h
    | cons b2 t =>
      rw [ht] at h
      simpa using h

theorem trimRightIn_last_notin :
    ∀ (cs s : List Char) (a : Char), (trimRightIn cs s).getLast? = some a → cs.contains a = false := by
  intro cs s
  induction s with
  | nil => intro a h; simp [trimRightIn] at h
  | cons b r ih =>
    intro a h
    unfold trimRightIn at h
    cases ht : trimRightIn cs r with
    | nil =>
      rw [ht] at h
      by_cases hb : cs.contains b
      · rw [if_pos hb] at h; simp at h
      · rw [if_neg hb] at h
        simp at h
        rw [← h]
        simpa using hb
    | cons b2 t =>
      rw [ht] at h
      rw [List.getLast?_cons_cons] at h
      rw [← ht] at h
      exact ih a h

/-- The invariant every emitted option satisfies: a nonempty token starts with a
dash, and the description carries no leading and no trailing space character. -/
def optInv (o : Opt) : Prop :=
  (¬o.Name = [] → o.Name.head? = some '-') ∧
  ¬o.Desc.head? = some ' ' ∧ ¬o.Desc.getLast? = some ' '

theorem optFromEntry_emitted :
    ∀ (opt : List Char) (o : Opt), optFromEntry opt = some (some o) → optInv o := by
  intro opt o h
  unfold optFromEntry at h
  split at h
  · simp at h
  · rename_i idx hidx
    split at h
    · simp at h
    · rename_i rel hrel
      split at h
      · rename_i hle
        simp only [Option.some.injEq] at h
        cases o with
        | mk nm ds =>
          simp only [Opt.mk.injEq] at h
          obtain ⟨hnm, hds⟩ := h
          refine ⟨?_, ?_, ?_⟩
          · intro hne
            have hne2 : ¬nm = [] := hne
            show nm.head? = some '-'
            rw [← hnm]
            cases hn : rel + 1 - idx with
            | zero =>
              rw [hn, List.take_zero] at hnm
              exact absurd hnm.symm hne2
            | succ n =>
              rw [take_succ_head]
              exact idxOf_drop_head '-' opt idx hidx
          · intro hsp
            have hsp2 : ds.head? = some ' ' := hsp
            rw [← hds] at hsp2
            simp only [trimBothSpace] at hsp2
            have h2 := trimRightIn_head_keeps [' '] _ _ hsp2
            have h3 := trimLeftIn_head_notin [' '] _ _ h2
            simp at h3
          · intro hsp
            have hsp2 : ds.getLast? = some ' ' := hsp
            rw [← hds] at hsp2
            simp only [trimBothSpace] at hsp2
            have h3 := trimRightIn_last_notin [' '] _ _ hsp2
            simp at h3
      · simp at h

theorem parseOptsLoop_inv (P : Opt → Prop)
    (hP : ∀ (opt : List Char) (o : Opt), optFromEntry opt = some (some o) → P o) :
    ∀ (d : List Char) (fuel off : Nat) (acc res : List Opt),
      parseOptsLoop d fuel off acc = some res → (∀ o ∈ acc, P o) → ∀ o ∈ res, P o := by
  intro d fuel
  induction fuel with
  | zero =>
    intro off acc res h hacc
    simp only [parseOptsLoop, Option.some.injEq] at h
    subst h
    exact hacc
  | succ fuel ih =>
    intro off acc res h hacc
    unfold parseOptsLoop at h
    split at h
    · simp only [Option.some.injEq] at h
      subst h
      exact hacc
    · rename_i mc hmc
      split at h
      · simp only [Option.some.injEq] at h
        subst h
        exact hacc
      · rename_i hsh
        split at h
        · simp only [Option.some.injEq] at h
          subst h
          exact hacc
        · rename_i hbi
          split at h
          · simp at h
          · rename_i he
            exact ih mc.loc.2 acc res h hacc
          · rename_i o2 he
            refine ih mc.loc.2 (acc ++ [o2]) res h ?_
            intro o ho
            rcases List.mem_append.mp ho with hin | hin
            · exact hacc o hin
            · rw [List.mem_singleton.mp hin]
              exact hP _ o2 he

/-- Claim C9, amended: every option a successful run emits has a token that is
either empty or starts with the matched dash, and a description with no leading
and no trailing space character (whitespace other than the space character can
remain, and the token can be empty, see the counterexample). -/
theorem C9_option_invariant :
    ∀ (d : List Char) (opts : List Opt) (o : Opt), optsOf d = some opts → o ∈ opts →
      (¬o.Name = [] → o.Name.head? = some '-') ∧
      ¬o.Desc.head? = some ' ' ∧ ¬o.Desc.getLast? = some ' ' := by
  intro d opts o h ho
  unfold optsOf at h
  split at h
  · simp only [Option.some.injEq] at h
    subst h
    simp at ho
  · rename_i idx hidx
    exact parseOptsLoop_inv optInv optFromEntry_emitted d (d.length + 1) idx [] opts h
      (by intro o2 ho2; simp at ho2) o ho

/-- Document for the C9 counterexample: the entry text has its dash right before
the character the whitespace search finds, so the absolute slice is empty, and
the description ends in a tab the space only trim keeps. -/
def dC9 : List Char := str ".SH OPTIONS\n.B ab- x\ty\t\n"

/-- The option the C9 counterexample document produces. -/
def oC9 : Opt := { Name := [], Desc := str "- x\ty\t" }

/-- Counterexample for claim C9: the emitted token is empty, so it does not begin
with a dash, and the emitted description ends with a whitespace character. -/
theorem C9_counterexample :
    optsOf dC9 = some [oC9] ∧ ¬(oC9.Name.head? = some '-') ∧
    oC9.Desc.getLast? = some '\t' ∧ isSpaceGo '\t' = true := by
  decide

/-- Document for the C9 witness. -/
def dC9w : List Char := str ".SH OPTIONS\n.B \\-q\nfine\n"

/-- The option the C9 witness document produces. -/
def oC9w : Opt := { Name := str "-q", Desc := str "fine" }

/-- Witness for claim C9 on a concrete emitted option. -/
theorem C9_witness :
    (¬oC9w.Name = [] → oC9w.Name.head? = some '-') ∧
    ¬oC9w.Desc.head? = some ' ' ∧ ¬oC9w.Desc.getLast? = some ' ' :=
  C9_option_invariant dC9w [oC9w] oC9w (by decide) (by decide)

/-! Claim C10: behaviour of parsing the same document twice. -/

theorem parseOptsLoop_append :
    ∀ (d : List Char) (fuel off : Nat) (acc : List Opt),
      parseOptsLoop d fuel off acc =
        (parseOptsLoop d fuel off []).map (fun ops => acc ++ ops) := by
  intro d fuel
  induction fuel with
  | zero => intro off acc; simp [parseOptsLoop]
  | succ fuel ih =>
    intro off acc
    unfold parseOptsLoop
    cases hmc : nextMacroOffset d off with
    | none => simp
    | some mc =>
      show (if mc.mtype = MacroType.SH then some acc
          else if ¬(mc.mtype = MacroType.B ∨ mc.mtype = MacroType.IP) then some acc
          else match optFromEntry (trimLeftIn [' '] (collectOpt (splitOnNl (d.drop mc.loc.2)))) with
            | none => none
            | some none => parseOptsLoop d fuel mc.loc.2 acc
            | some (some o) => parseOptsLoop d fuel mc.loc.2 (acc ++ [o])) =
        Option.map (fun ops => acc ++ ops)
          (if mc.mtype = MacroType.SH then some []
           else if ¬(mc.mtype = MacroType.B ∨ mc.mtype = MacroType.IP) then some []
           else match optFromEntry (trimLeftIn [' '] (collectOpt (splitOnNl (d.drop mc.loc.2)))) with
             | none => none
             | some none => parseOptsLoop d fuel mc.loc.2 []
             | some (some o) => parseOptsLoop d fuel mc.loc.2 ([] ++ [o]))
      by_cases hsh : mc.mtype = .SH
      · simp [hsh]
      · rw [if_neg hsh, if_neg hsh]
        by_cases hbi : mc.mtype = .B ∨ mc.mtype = .IP
        · have hnn : ¬¬(mc.mtype = .B ∨ mc.mtype = .IP) := not_not_intro hbi
          rw [if_neg hnn, if_neg hnn]
          cases he : optFromEntry (trimLeftIn [' '] (collectOpt (splitOnNl (d.drop mc.loc.2)))) with
          | none => rfl
          | some eo =>
            cases eo with
            | none =>
              show parseOptsLoop d fuel mc.loc.2 acc =
                (parseOptsLoop d fuel mc.loc.2 []).map (fun ops => acc ++ ops)
              exact ih mc.loc.2 acc
            | some o2 =>
              show parseOptsLoop d fuel mc.loc.2 (acc ++ [o2]) =
                (parseOptsLoop d fuel mc.loc.2 ([] ++ [o2])).map (fun ops => acc ++ ops)
              rw [ih mc.loc.2 (acc ++ [o2]), ih mc.loc.2 ([] ++ [o2])]
              cases hres : parseOptsLoop d fuel mc.loc.2 [] with
              | none => simp
              | some ops => simp
        · rw [if_pos hbi, if_pos hbi]
          simp

/-- The record state just before parseOpts runs inside parse: the three field
parsers have filled the fields from the normalized data, everything else is
carried over. -/
theorem parse_prep (m : ManPage) (d : List Char) :
    parseSynopsis (parseDesc (parseName { m with data := normalizeCR d })) =
      { Name := nameOfData (normalizeCR d), Path := m.Path,
        Desc := getSection (normalizeCR d) [str "DESCRIPTION"],
        Synopsis := getSection (normalizeCR d) [str "SYNOPSIS"],
        data := normalizeCR d, Opts := m.Opts } := rfl

/-- Claim C10, amended: parsing is deterministic in the document, so the name,
description, synopsis and data fields come out identical across the two parses;
the option sequence however is appended to the Opts the record already holds, so
the second parse of the same record appends the same option run again. -/
theorem C10_reparse :
    ∀ (m : ManPage) (d : List Char) (m1 : ManPage), parse m d = some m1 →
      ∃ m2, parse m1 d = some m2 ∧ m2.Name = m1.Name ∧ m2.Path = m1.Path ∧
        m2.Desc = m1.Desc ∧ m2.Synopsis = m1.Synopsis ∧ m2.data = m1.data ∧
        ∃ ops, m1.Opts = m.Opts ++ ops ∧ m2.Opts = m1.Opts ++ ops := by
  intro m d m1 h
  have h1 : parseOpts
      { Name := nameOfData (normalizeCR d), Path := m.Path,
        Desc := getSection (normalizeCR d) [str "DESCRIPTION"],
        Synopsis := getSection (normalizeCR d) [str "SYNOPSIS"],
        data := normalizeCR d, Opts := m.Opts } = some m1 := by
    rw [← parse_prep m d]
    exact h
  have h2 : parse m1 d = parseOpts
      { Name := nameOfData (normalizeCR d), Path := m1.Path,
        Desc := getSection (normalizeCR d) [str "DESCRIPTION"],
        Synopsis := getSection (normalizeCR d) [str "SYNOPSIS"],
        data := normalizeCR d, Opts := m1.Opts } := by
    show parseOpts (parseSynopsis (parseDesc (parseName { m1 with data := normalizeCR d }))) = _
    rw [parse_prep m1 d]
  unfold parseOpts at h1
  unfold parseOpts at h2
  cases hsec : optSectionIdx (normalizeCR d) with
  | none =>
    rw [hsec] at h1 h2
    simp only [Option.some.injEq] at h1 h2
    refine ⟨_, h2, ?_, ?_, ?_, ?_, ?_, [], ?_, ?_⟩ <;> first | rfl | simp [← h1]
  | some idx =>
    rw [hsec] at h1 h2
    simp only [Option.map_eq_some'] at h1
    obtain ⟨ops1, hloop, hm1⟩ := h1
    rw [parseOptsLoop_append] at hloop
    cases hbase : parseOptsLoop (normalizeCR d) ((normalizeCR d).length + 1) idx [] with
    | none => rw [hbase] at hloop; simp at hloop
    | some ops =>
      rw [hbase] at hloop
      simp only [Option.map_some', Option.some.injEq] at hloop
      have hloop2 : parseOptsLoop (normalizeCR d) ((normalizeCR d).length + 1) idx m1.Opts =
          some (m1.Opts ++ ops) := by
        rw [parseOptsLoop_append, hbase]
        simp
      simp only [hloop2, Option.map_some'] at h2
      refine ⟨_, h2, ?_, ?_, ?_, ?_, ?_, ops, ?_, ?_⟩ <;> first | rfl | simp [← hm1, ← hloop]

/-- Fresh record for the C10 counterexample. -/
def mpC10 : ManPage :=
  { Name := [], Path := [], Desc := [], Synopsis := [], data := [], Opts := [] }

/-- Document for the C10 counterexample, a page with one option entry. -/
def dC10 : List Char := str ".SH OPTIONS\n.B \\-q\nq is an option\n"

/-- The record after the first parse of the C10 counterexample document. -/
def mpC10a : ManPage :=
  { Name := str "N/A", Path := [], Desc := str "N/A", Synopsis := str "N/A",
    data := str ".SH OPTIONS\n.B \\-q\nq is an option\n",
    Opts := [{ Name := str "-q", Desc := str "q is an option" }] }

/-- The record after the second parse of the same document into the same record. -/
def mpC10b : ManPage :=
  { Name := str "N/A", Path := [], Desc := str "N/A", Synopsis := str "N/A",
    data := str ".SH OPTIONS\n.B \\-q\nq is an option\n",
    Opts := [{ Name := str "-q", Desc := str "q is an option" },
             { Name := str "-q", Desc := str "q is an option" }] }

/-- Counterexample for claim C10: parsing the same normalized document twice is
not idempotent on the record, the option sequence is accumulated, so the two
resulting records are not bit identical. -/
theorem C10_counterexample :
    parse mpC10 dC10 = some mpC10a ∧ parse mpC10a dC10 = some mpC10b ∧
    ¬(mpC10b = mpC10a) := by decide

/-- Witness for claim C10: the amended statement applied to the counterexample
document and a fresh record. -/
theorem C10_witness :
    ∃ m2, parse mpC10a dC10 = some m2 ∧ m2.Name = mpC10a.Name ∧ m2.Path = mpC10a.Path ∧
      m2.Desc = mpC10a.Desc ∧ m2.Synopsis = mpC10a.Synopsis ∧ m2.data = mpC10a.data ∧
      ∃ ops, mpC10a.Opts = mpC10.Opts ++ ops ∧ m2.Opts = mpC10a.Opts ++ ops :=
  C10_reparse mpC10 dC10 mpC10a (by decide)

/-! Claim C8: a declarative characterization of the section locator. -/

/-- A position at which the anchored scan may match, relative to the scanned
suffix: position zero when the scan starts at a line start, and any position
just after a newline. -/
def relLS (b : Bool) (s : List Char) (k : Nat) : Prop :=
  (k = 0 ∧ b = true) ∨ ∃ k0, k = k0 + 1 ∧ s.get? k0 = some '\n'

theorem relLS_zero (b : Bool) (s : List Char) : relLS b s 0 ↔ b = true := by
  simp [relLS]

theorem relLS_succ (b : Bool) (c : Char) (r : List Char) (k : Nat) :
    relLS b (c :: r) (k + 1) ↔ relLS (decide (c = '\n')) r k := by
  constructor
  · intro h
    rcases h with ⟨h0, _⟩ | ⟨k0, hk0, hget⟩
    · omega
    · have hkk : k0 = k := by omega
      rw [hkk] at hget
      cases k with
      | zero =>
        simp at hget
        left
        exact ⟨rfl, by simp [hget]⟩
      | succ k1 =>
        right
        refine ⟨k1, rfl, ?_⟩
        simpa using hget
  · intro h
    rcases h with ⟨h0, hb⟩ | ⟨k0, hk0, hget⟩
    · subst h0
      right
      refine ⟨0, rfl, ?_⟩
      simp
      exact of_decide_eq_true hb
    · right
      refine ⟨k0 + 1, by omega, ?_⟩
      simpa using hget

theorem lineStartAt_iff_relLS (d : List Char) (k : Nat) :
    lineStartAt d k ↔ relLS true d k := by
  simp [lineStartAt, relLS]

theorem scanLines_none_iff (p : List Char → Option Nat) (hp : p [] = none) :
    ∀ (s : List Char) (pos : Nat) (b : Bool),
      scanLines p pos b s = none ↔ ∀ k, relLS b s k → p (s.drop k) = none := by
  intro s
  induction s with
  | nil =>
    intro pos b
    constructor
    · intro _ k _
      simp [hp]
    · intro _
      rfl
  | cons c r ih =>
    intro pos b
    cases b with
    | false =>
      have hred : scanLines p pos false (c :: r) = scanLines p (pos + 1) (decide (c = '\n')) r := rfl
      rw [hred, ih (pos + 1) (decide (c = '\n'))]
      constructor
      · intro h k hk
        cases k with
        | zero =>
          rw [relLS_zero] at hk
          simp at hk
        | succ k2 =>
          rw [relLS_succ] at hk
          simpa using h k2 hk
      · intro h k hk
        have := h (k + 1) ((relLS_succ false c r k).mpr hk)
        simpa using this
    | true =>
      cases hpc : p (c :: r) with
      | some len =>
        have hred : scanLines p pos true (c :: r) = some (pos, len) := by
          show (match p (c :: r) with
            | some len => some (pos, len)
            | none => scanLines p (pos + 1) (decide (c = '\n')) r) = some (pos, len)
          rw [hpc]
        rw [hred]
        constructor
        · intro h
          simp at h
        · intro h
          have h0 := h 0 ((relLS_zero true (c :: r)).mpr rfl)
          simp [hpc] at h0
      | none =>
        have hred : scanLines p pos true (c :: r) = scanLines p (pos + 1) (decide (c = '\n')) r := by
          show (match p (c :: r) with
            | some len => some (pos, len)
            | none => scanLines p (pos + 1) (decide (c = '\n')) r) = _
          rw [hpc]
        rw [hred, ih (pos + 1) (decide (c = '\n'))]
        constructor
        · intro h k hk
          cases k with
          | zero => simpa using hpc
          | succ k2 =>
            rw [relLS_succ] at hk
            simpa using h k2 hk
        · intro h k hk
          have := h (k + 1) ((relLS_succ true c r k).mpr hk)
          simpa using this

theorem scanLines_some_full (p : List Char → Option Nat) :
    ∀ (s : List Char) (pos : Nat) (b : Bool) (i len : Nat),
      scanLines p pos b s = some (i, len) →
      ∃ k, i = pos + k ∧ relLS b s k ∧ p (s.drop k) = some len := by
  intro s
  induction s with
  | nil => intro pos b i len h; simp [scanLines] at h
  | cons c r ih =>
    intro pos b i len h
    cases b with
    | false =>
      have hred : scanLines p pos false (c :: r) = scanLines p (pos + 1) (decide (c = '\n')) r := rfl
      rw [hred] at h
      obtain ⟨k, hk, hrel, hp2⟩ := ih (pos + 1) (decide (c = '\n')) i len h
      exact ⟨k + 1, by omega, (relLS_succ false c r k).mpr hrel, by simpa using hp2⟩
    | true =>
      cases hpc : p (c :: r) with
      | some len2 =>
        have hred : scanLines p pos true (c :: r) = some (pos, len2) := by
          show (match p (c :: r) with
            | some len => some (pos, len)
            | none => scanLines p (pos + 1) (decide (c = '\n')) r) = some (pos, len2)
          rw [hpc]
        rw [hred] at h
        simp at h
        obtain ⟨hpos, hlen⟩ := h
        refine ⟨0, by omega, (relLS_zero true (c :: r)).mpr rfl, ?_⟩
        rw [List.drop_zero, hpc]
        simp only [Option.some.injEq]
        omega
      | none =>
        have hred : scanLines p pos true (c :: r) = scanLines p (pos + 1) (decide (c = '\n')) r := by
          show (match p (c :: r) with
            | some len => some (pos, len)
            | none => scanLines p (pos + 1) (decide (c = '\n')) r) = _
          rw [hpc]
        rw [hred] at h
        obtain ⟨k, hk, hrel, hp2⟩ := ih (pos + 1) (decide (c = '\n')) i len h
        exact ⟨k + 1, by omega, (relLS_succ true c r k).mpr hrel, by simpa using hp2⟩

theorem spacesLen_decomp :
    ∀ r : List Char, r = List.replicate (spacesLen r) ' ' ++ r.drop (spacesLen r) := by
  intro r
  induction r with
  | nil => rfl
  | cons c t ih =>
    by_cases hc : c = ' '
    · have hs : spacesLen (c :: t) = spacesLen t + 1 := by simp [spacesLen, hc]
      rw [hs]
      rw [List.replicate_succ]
      subst hc
      simpa using ih
    · have hs : spacesLen (c :: t) = 0 := by simp [spacesLen, hc]
      rw [hs]
      simp

theorem leadsWith_decomp :
    ∀ (a b : List Char), leadsWith a b = true → b = a ++ b.drop a.length := by
  intro a
  induction a with
  | nil => intro b _; simp
  | cons x xs ih =>
    intro b h
    cases b with
    | nil => simp [leadsWith] at h
    | cons y ys =>
      simp only [leadsWith, Bool.and_eq_true, decide_eq_true_eq] at h
      obtain ⟨hxy, hl⟩ := h
      have := ih ys hl
      simp [← hxy, List.length_cons]
      exact this

theorem longestAltLen_some :
    ∀ (names : List (List Char)) (r : List Char) (alen : Nat),
      longestAltLen names r = some alen →
      ∃ alt, alt ∈ names ∧ leadsWith alt r = true ∧ alt.length = alen := by
  intro names
  induction names with
  | nil => intro r alen h; simp [longestAltLen] at h
  | cons n1 rest ih =>
    intro r alen h
    unfold longestAltLen at h
    cases ht : longestAltLen rest r with
    | none =>
      rw [ht] at h
      have h2 : (if leadsWith n1 r = true then some n1.length else none) = some alen := h
      clear h
      by_cases hl : leadsWith n1 r = true
      · rw [if_pos hl] at h2
        simp at h2
        exact ⟨n1, by simp, hl, h2⟩
      · rw [if_neg hl] at h2
        simp at h2
    | some b =>
      rw [ht] at h
      have h2 : (if leadsWith n1 r = true then
          (if b < n1.length then some n1.length else some b) else some b) = some alen := h
      clear h
      obtain ⟨alt, hmem, hlw, hlen⟩ := ih r b ht
      by_cases hl : leadsWith n1 r = true
      · rw [if_pos hl] at h2
        by_cases hb : b < n1.length
        · rw [if_pos hb] at h2
          simp at h2
          exact ⟨n1, by simp, hl, h2⟩
        · rw [if_neg hb] at h2
          simp at h2
          exact ⟨alt, by simp [hmem], hlw, by omega⟩
      · rw [if_neg hl] at h2
        simp at h2
        exact ⟨alt, by simp [hmem], hlw, by omega⟩

theorem matchSH_inv :
    ∀ (names : List (List Char)) (s : List Char) (len : Nat),
      matchSH names s = some len →
      ∃ sp alt rest2, alt ∈ names ∧
        s = '.' :: 'S' :: 'H' :: (List.replicate sp ' ' ++ (alt ++ rest2)) ∧
        len = 3 + sp + alt.length := by
  intro names s len h
  cases s with
  | nil => simp [matchSH] at h
  | cons a t =>
    cases t with
    | nil => simp [matchSH] at h
    | cons b t2 =>
      cases t2 with
      | nil => simp [matchSH] at h
      | cons c r =>
        have h2 : (if a = '.' ∧ b = 'S' ∧ c = 'H' then
            (match longestAltLen names (r.drop (spacesLen r)) with
             | some alen => some (3 + spacesLen r + alen)
             | none => none)
            else none) = some len := h
        clear h
        by_cases hcond : a = '.' ∧ b = 'S' ∧ c = 'H'
        · rw [if_pos hcond] at h2
          cases halt : longestAltLen names (r.drop (spacesLen r)) with
          | none => rw [halt] at h2; simp at h2
          | some alen =>
            rw [halt] at h2
            simp at h2
            obtain ⟨alt, hmem, hlw, hlen⟩ := longestAltLen_some names _ alen halt
            refine ⟨spacesLen r, alt, (r.drop (spacesLen r)).drop alt.length, hmem, ?_, ?_⟩
            · obtain ⟨ha, hb, hc⟩ := hcond
              subst ha; subst hb; subst hc
              have hr := spacesLen_decomp r
              have halt2 := leadsWith_decomp alt (r.drop (spacesLen r)) hlw
              simp only [List.cons.injEq, true_and]
              calc r = List.replicate (spacesLen r) ' ' ++ r.drop (spacesLen r) := hr
                _ = List.replicate (spacesLen r) ' ' ++ (alt ++ (r.drop (spacesLen r)).drop alt.length) := by
                    rw [← halt2]
            · omega
        · rw [if_neg hcond] at h2
          simp at h2

/-- Claim C8, amended: findSection fails exactly when no line start carries a
section heading match, and on success it returns the offset immediately after
the matched heading text, which is the end of the dot S H, spaces, name match of
some line start, not the offset past that heading line. -/
theorem C8_findSection_characterization :
    ∀ (d : List Char) (names : List (List Char)),
      (findSection d names = none ↔ ∀ i, lineStartAt d i → matchSH names (d.drop i) = none) ∧
      (∀ o, findSection d names = some o →
        ∃ i len, lineStartAt d i ∧ matchSH names (d.drop i) = some len ∧ o = i + len ∧
          ∃ sp alt rest2, alt ∈ names ∧
            d.drop i = '.' :: 'S' :: 'H' :: (List.replicate sp ' ' ++ (alt ++ rest2)) ∧
            len = 3 + sp + alt.length) := by
  intro d names
  constructor
  · constructor
    · intro h i hi
      cases hscan : scanLines (matchSH names) 0 true d with
      | none =>
        exact (scanLines_none_iff (matchSH names) rfl d 0 true).mp hscan i
          ((lineStartAt_iff_relLS d i).mp hi)
      | some pr =>
        obtain ⟨i2, len⟩ := pr
        have hsome : findSection d names = some (i2 + len) := by
          unfold findSection
          rw [hscan]
        rw [h] at hsome
        simp at hsome
    · intro h
      unfold findSection
      cases hscan : scanLines (matchSH names) 0 true d with
      | none => rfl
      | some pr =>
        obtain ⟨i2, len⟩ := pr
        obtain ⟨k, hk, hrel, hp⟩ := scanLines_some_full (matchSH names) d 0 true i2 len hscan
        have hnone := h k ((lineStartAt_iff_relLS d k).mpr hrel)
        rw [hnone] at hp
        simp at hp
  · intro o h
    unfold findSection at h
    cases hscan : scanLines (matchSH names) 0 true d with
    | none => rw [hscan] at h; simp at h
    | some pr =>
      obtain ⟨i, len⟩ := pr
      rw [hscan] at h
      simp at h
      obtain ⟨k, hk, hrel, hp⟩ := scanLines_some_full (matchSH names) d 0 true i len hscan
      have hik : i = k := by omega
      subst hik
      refine ⟨i, len, (lineStartAt_iff_relLS d i).mpr hrel, hp, by omega, ?_⟩
      exact matchSH_inv names (d.drop i) len hp

/-- Document for the C8 counterexample: the heading line carries text after the
matched name. -/
def dC8 : List Char := str ".SH NAME tail\nbar\n"

/-- Counterexample for claim C8: findSection returns offset eight, the end of
the matched pattern, while the offset immediately after the matched heading
line is fourteen. -/
theorem C8_counterexample :
    findSection dC8 [str "NAME"] = some 8 ∧
    findSectionLineSpec dC8 [str "NAME"] = some 14 ∧ ¬((8 : Nat) = 14) := by
  decide

/-- Document for the C8 witness. -/
def dC8w : List Char := str ".SH NAME\nx\n"

/-- Witness for claim C8 on a concrete document with one heading. -/
theorem C8_witness :
    ∃ i len, lineStartAt dC8w i ∧ matchSH [str "NAME"] (dC8w.drop i) = some len ∧
      (8 : Nat) = i + len ∧
      ∃ sp alt rest2, alt ∈ [str "NAME"] ∧
        dC8w.drop i = '.' :: 'S' :: 'H' :: (List.replicate sp ' ' ++ (alt ++ rest2)) ∧
        len = 3 + sp + alt.length :=
  (C8_findSection_characterization dC8w [str "NAME"]).2 8 (by decide)

/-! Claim C3: the macro stripper rewrites each line by removing its macro token.
The lemmas below relate the character stream scan of stripMacros to a per line
description: split into lines, drop the leading token of each line that has one,
rejoin.  notNl is the character class of a line interior. -/

/-- Character test for staying inside a line. -/
def notNl (c : Char) : Bool := !decide (c = '\n')

theorem upper_notNl : ∀ c : Char, isUpperAZ c = true → notNl c = true := by
  intro c h
  by_cases hc : c = '\n'
  · subst hc
    exact absurd h (by decide)
  · simp [notNl, hc]

theorem upRun_le : ∀ s : List Char, upRun s ≤ s.length := by
  intro s
  induction s with
  | nil => simp [upRun]
  | cons c r ih =>
    by_cases hc : isUpperAZ c
    · simp [upRun, hc]
      omega
    · simp [upRun, hc]

theorem spacesLen_le : ∀ s : List Char, spacesLen s ≤ s.length := by
  intro s
  induction s with
  | nil => simp [spacesLen]
  | cons c r ih =>
    by_cases hc : c = ' '
    · simp [spacesLen, hc]
      omega
    · simp [spacesLen, hc]

theorem macroTokLen_bounds :
    ∀ (s : List Char) (n : Nat), macroTokLen s = some n → 2 ≤ n ∧ n ≤ s.length := by
  intro s n h
  cases s with
  | nil => simp [macroTokLen] at h
  | cons a r =>
    have h2 : (if a = '.' then
        (if upRun r = 0 then none
         else some (1 + upRun r + spacesLen (r.drop (upRun r))))
        else none) = some n := h
    clear h
    by_cases ha : a = '.'
    · rw [if_pos ha] at h2
      by_cases hu : upRun r = 0
      · rw [if_pos hu] at h2
        simp at h2
      · rw [if_neg hu] at h2
        simp at h2
        have h3 := upRun_le r
        have h4 := spacesLen_le (r.drop (upRun r))
        have h5 : (r.drop (upRun r)).length = r.length - upRun r := by simp
        simp [List.length_cons]
        omega
    · rw [if_neg ha] at h2
      simp at h2

theorem stripScan_fuel :
    ∀ (n fuel : Nat) (b : Bool) (s : List Char), s.length ≤ n → s.length < fuel →
      stripScan fuel b s = stripScan (s.length + 1) b s := by
  intro n
  induction n with
  | zero =>
    intro fuel b s hn hf
    have hs : s = [] := by
      cases s with
      | nil => rfl
      | cons c r => simp at hn
    subst hs
    cases fuel with
    | zero => omega
    | succ f => rfl
  | succ n ih =>
    intro fuel b s hn hf
    cases s with
    | nil =>
      cases fuel with
      | zero => omega
      | succ f => rfl
    | cons c r =>
      cases fuel with
      | zero => omega
      | succ f =>
        have hlen : (c :: r).length = r.length + 1 := rfl
        cases b with
        | false =>
          show c :: stripScan f (decide (c = '\n')) r =
            c :: stripScan (r.length + 1) (decide (c = '\n')) r
          rw [ih f (decide (c = '\n')) r (by omega) (by simp at hf; omega)]
        | true =>
          have hfr : r.length < f := by
            simp [List.length_cons] at hf
            omega
          cases htok : macroTokLen (c :: r) with
          | none =>
            have hstepL : stripScan (f + 1) true (c :: r) =
                c :: stripScan f (decide (c = '\n')) r := by
              show (match macroTokLen (c :: r) with
                | some nn => stripScan f false ((c :: r).drop nn)
                | none => c :: stripScan f (decide (c = '\n')) r) = _
              rw [htok]
            have hstepR : stripScan ((c :: r).length + 1) true (c :: r) =
                c :: stripScan (r.length + 1) (decide (c = '\n')) r := by
              show (match macroTokLen (c :: r) with
                | some nn => stripScan (r.length + 1) false ((c :: r).drop nn)
                | none => c :: stripScan (r.length + 1) (decide (c = '\n')) r) = _
              rw [htok]
            rw [hstepL, hstepR, ih f (decide (c = '\n')) r (by omega) hfr]
          | some m =>
            have hb := macroTokLen_bounds (c :: r) m htok
            have hdl : ((c :: r).drop m).length = r.length + 1 - m := by simp
            have hstepL : stripScan (f + 1) true (c :: r) =
                stripScan f false ((c :: r).drop m) := by
              show (match macroTokLen (c :: r) with
                | some nn => stripScan f false ((c :: r).drop nn)
                | none => c :: stripScan f (decide (c = '\n')) r) = _
              rw [htok]
            have hstepR : stripScan ((c :: r).length + 1) true (c :: r) =
                stripScan (r.length + 1) false ((c :: r).drop m) := by
              show (match macroTokLen (c :: r) with
                | some nn => stripScan (r.length + 1) false ((c :: r).drop nn)
                | none => c :: stripScan (r.length + 1) (decide (c = '\n')) r) = _
              rw [htok]
            rw [hstepL, hstepR,
              ih f false ((c :: r).drop m) (by omega) (by omega),
              ih (r.length + 1) false ((c :: r).drop m) (by omega) (by omega)]

theorem splitOnChar_ne_nil : ∀ (sep : Char) (s : List Char), ¬splitOnChar sep s = [] := by
  intro sep s
  cases s with
  | nil => simp [splitOnChar]
  | cons c r =>
    unfold splitOnChar
    by_cases hc : c = sep
    · rw [if_pos hc]
      simp
    · rw [if_neg hc]
      cases hs : splitOnChar sep r with
      | nil => simp
      | cons l ls => simp

theorem joinLines_consCons :
    ∀ (c : Char) (l : List Char) (X : List (List Char)),
      joinLines ((c :: l) :: X) = c :: joinLines (l :: X) := by
  intro c l X
  cases X with
  | nil => rfl
  | cons x xs => rfl

theorem joinLines_nil_cons :
    ∀ (X : List (List Char)), ¬X = [] → joinLines ([] :: X) = '\n' :: joinLines X := by
  intro X hX
  cases X with
  | nil => exact absurd rfl hX
  | cons x xs => rfl

theorem splitOnNl_cons_nl : ∀ r : List Char, splitOnNl ('\n' :: r) = [] :: splitOnNl r := by
  intro r
  simp [splitOnNl, splitOnChar]

theorem splitOnNl_cons_other :
    ∀ (c : Char) (r l0 : List Char) (ls0 : List (List Char)), ¬c = '\n' →
      splitOnNl r = l0 :: ls0 → splitOnNl (c :: r) = (c :: l0) :: ls0 := by
  intro c r l0 ls0 hc hsplit
  show splitOnChar '\n' (c :: r) = _
  unfold splitOnChar
  rw [if_neg hc]
  rw [show splitOnChar '\n' r = l0 :: ls0 from hsplit]

theorem splitOnNl_head :
    ∀ (s l : List Char) (ls : List (List Char)),
      splitOnNl s = l :: ls → l = s.takeWhile notNl := by
  intro s l ls h
  have h2 := splitOnChar_headD '\n' s
  rw [show splitOnChar '\n' s = l :: ls from h] at h2
  simp at h2
  exact h2

theorem takeWhile_head_transfer :
    ∀ (p : Char → Bool) (z : List Char) (c : Char),
      (z.takeWhile p).head? = some c → z.head? = some c := by
  intro p z c h
  cases z with
  | nil => simp at h
  | cons a t =>
    rw [List.takeWhile_cons] at h
    by_cases hp : p a
    · rw [if_pos hp] at h
      simpa using h
    · rw [if_neg hp] at h
      simp at h

theorem takeWhile_append_all :
    ∀ (p : Char → Bool) (a b : List Char), a.all p = true →
      (a ++ b).takeWhile p = a ++ b.takeWhile p := by
  intro p a
  induction a with
  | nil => intro b _; simp
  | cons c t ih =>
    intro b h
    simp only [List.all_cons, Bool.and_eq_true] at h
    simp only [List.cons_append, List.takeWhile_cons, h.1, if_pos]
    rw [ih b h.2]

theorem splitOnNl_append_all :
    ∀ (a b l : List Char) (ls : List (List Char)), a.all notNl = true →
      splitOnNl b = l :: ls → splitOnNl (a ++ b) = (a ++ l) :: ls := by
  intro a
  induction a with
  | nil => intro b l ls _ h; simpa using h
  | cons c t ih =>
    intro b l ls h hsplit
    simp only [List.all_cons, Bool.and_eq_true] at h
    have hc : ¬c = '\n' := by
      have := h.1
      simp [notNl] at this
      exact this
    have ht := ih b l ls h.2 hsplit
    rw [List.cons_append]
    rw [splitOnNl_cons_other c (t ++ b) (t ++ l) ls hc ht]
    simp

theorem upRun_takeWhile : ∀ s : List Char, upRun (s.takeWhile notNl) = upRun s := by
  intro s
  induction s with
  | nil => rfl
  | cons c r ih =>
    by_cases hup : isUpperAZ c
    · rw [List.takeWhile_cons, if_pos (upper_notNl c hup)]
      simp [upRun, hup, ih]
    · by_cases hnl : notNl c
      · rw [List.takeWhile_cons, if_pos hnl]
        simp [upRun, hup]
      · rw [List.takeWhile_cons, if_neg (by simpa using hnl)]
        simp [upRun, hup]

theorem takeWhile_drop_upRun :
    ∀ s : List Char, (s.takeWhile notNl).drop (upRun s) = (s.drop (upRun s)).takeWhile notNl := by
  intro s
  induction s with
  | nil => rfl
  | cons c r ih =>
    by_cases hup : isUpperAZ c
    · rw [List.takeWhile_cons, if_pos (upper_notNl c hup)]
      simp only [upRun, hup, if_pos]
      simpa using ih
    · simp only [upRun, hup, if_neg, Bool.false_eq_true, ite_false]
      simp

theorem spacesLen_takeWhile : ∀ s : List Char, spacesLen (s.takeWhile notNl) = spacesLen s := by
  intro s
  induction s with
  | nil => rfl
  | cons c r ih =>
    by_cases hsp : c = ' '
    · have hnl : notNl c = true := by simp [notNl, hsp]
      rw [List.takeWhile_cons, if_pos hnl]
      simp [spacesLen, hsp, ih]
    · by_cases hnl : notNl c
      · rw [List.takeWhile_cons, if_pos hnl]
        simp [spacesLen, hsp]
      · rw [List.takeWhile_cons, if_neg (by simpa using hnl)]
        have : ¬c = ' ' := hsp
        simp [spacesLen, hsp]

theorem macroTokLen_takeWhile :
    ∀ s : List Char, macroTokLen (s.takeWhile notNl) = macroTokLen s := by
  intro s
  cases s with
  | nil => rfl
  | cons a r =>
    by_cases ha : a = '.'
    · have hnl : notNl a = true := by simp [notNl, ha]
      rw [List.takeWhile_cons, if_pos hnl]
      show (if a = '.' then
          (if upRun (r.takeWhile notNl) = 0 then none
           else some (1 + upRun (r.takeWhile notNl) +
             spacesLen ((r.takeWhile notNl).drop (upRun (r.takeWhile notNl)))))
          else none) =
        (if a = '.' then
          (if upRun r = 0 then none
           else some (1 + upRun r + spacesLen (r.drop (upRun r))))
          else none)
      rw [upRun_takeWhile r, takeWhile_drop_upRun r, spacesLen_takeWhile (r.drop (upRun r))]
    · by_cases hnl : notNl a
      · rw [List.takeWhile_cons, if_pos hnl]
        show (if a = '.' then _ else none) = (if a = '.' then _ else none)
        rw [if_neg ha, if_neg ha]
      · rw [List.takeWhile_cons, if_neg (by simpa using hnl)]
        show none = (if a = '.' then _ else none)
        rw [if_neg ha]

theorem upRun_take_all : ∀ s : List Char, (s.take (upRun s)).all isUpperAZ = true := by
  intro s
  induction s with
  | nil => rfl
  | cons c r ih =>
    by_cases hup : isUpperAZ c
    · simp only [upRun, hup, if_pos, List.take_succ_cons, List.all_cons]
      simp [hup, ih]
    · simp [upRun, hup]

theorem upRun_drop_head :
    ∀ (s : List Char) (c : Char), (s.drop (upRun s)).head? = some c → isUpperAZ c = false := by
  intro s
  induction s with
  | nil => intro c h; simp at h
  | cons a r ih =>
    intro c h
    by_cases hup : isUpperAZ a
    · simp only [upRun, hup, if_pos, List.drop_succ_cons] at h
      exact ih c h
    · simp only [upRun, hup, Bool.false_eq_true, ite_false, List.drop_zero] at h
      simp at h
      rw [← h]
      simpa using hup

theorem spacesLen_drop_head :
    ∀ (s : List Char) (c : Char), (s.drop (spacesLen s)).head? = some c → ¬c = ' ' := by
  intro s
  induction s with
  | nil => intro c h; simp at h
  | cons a r ih =>
    intro c h
    by_cases hsp : a = ' '
    · simp only [spacesLen, hsp, if_pos, List.drop_succ_cons] at h
      exact ih c h
    · simp only [spacesLen, hsp, ite_false, List.drop_zero] at h
      simp at h
      rw [← h]
      exact hsp

theorem upRun_append_all :
    ∀ (us z : List Char), us.all isUpperAZ = true → upRun (us ++ z) = us.length + upRun z := by
  intro us
  induction us with
  | nil => intro z _; simp
  | cons c t ih =>
    intro z h
    simp only [List.all_cons, Bool.and_eq_true] at h
    simp only [List.cons_append, upRun, h.1, if_pos, List.length_cons]
    show upRun (t ++ z) + 1 = t.length + 1 + upRun z
    rw [ih z h.2]
    omega

theorem upRun_zero_head :
    ∀ z : List Char, (∀ c, z.head? = some c → isUpperAZ c = false) → upRun z = 0 := by
  intro z h
  cases z with
  | nil => rfl
  | cons c t =>
    have := h c (by simp)
    simp [upRun, this]

theorem spacesLen_replicate_append :
    ∀ (sp : Nat) (x : List Char), spacesLen (List.replicate sp ' ' ++ x) = sp + spacesLen x := by
  intro sp
  induction sp with
  | zero => intro x; simp
  | succ n ih =>
    intro x
    rw [List.replicate_succ, List.cons_append]
    have hstep : spacesLen (' ' :: (List.replicate n ' ' ++ x)) =
        spacesLen (List.replicate n ' ' ++ x) + 1 := by
      simp [spacesLen]
    rw [hstep, ih x]
    omega

theorem spacesLen_zero_head :
    ∀ x : List Char, (∀ c, x.head? = some c → ¬c = ' ') → spacesLen x = 0 := by
  intro x h
  cases x with
  | nil => rfl
  | cons c t =>
    have := h c (by simp)
    simp [spacesLen, this]

theorem macroTokLen_build :
    ∀ (us : List Char) (sp : Nat) (x : List Char), ¬us = [] → us.all isUpperAZ = true →
      (∀ c, x.head? = some c → ¬c = ' ' ∧ (sp = 0 → isUpperAZ c = false)) →
      macroTokLen ('.' :: (us ++ (List.replicate sp ' ' ++ x))) = some (1 + us.length + sp) := by
  intro us sp x hne hall hx
  have hz : upRun (List.replicate sp ' ' ++ x) = 0 := by
    cases sp with
    | zero =>
      simp only [List.replicate_zero, List.nil_append]
      exact upRun_zero_head x (fun c hc => (hx c hc).2 rfl)
    | succ n =>
      rw [List.replicate_succ, List.cons_append]
      simp [upRun, show isUpperAZ ' ' = false from by decide]
  have hu : upRun (us ++ (List.replicate sp ' ' ++ x)) = us.length := by
    rw [upRun_append_all us _ hall, hz]
    omega
  have hune : ¬us.length = 0 := by
    cases us with
    | nil => exact absurd rfl hne
    | cons a t => simp
  have hdrop : (us ++ (List.replicate sp ' ' ++ x)).drop us.length =
      List.replicate sp ' ' ++ x := List.drop_left us _
  have hsp : spacesLen (List.replicate sp ' ' ++ x) = sp := by
    rw [spacesLen_replicate_append, spacesLen_zero_head x (fun c hc => (hx c hc).1)]
    omega
  show (if ('.' : Char) = '.' then
      (if upRun (us ++ (List.replicate sp ' ' ++ x)) = 0 then none
       else some (1 + upRun (us ++ (List.replicate sp ' ' ++ x)) +
         spacesLen ((us ++ (List.replicate sp ' ' ++ x)).drop
           (upRun (us ++ (List.replicate sp ' ' ++ x))))))
      else none) = some (1 + us.length + sp)
  rw [if_pos rfl, hu, if_neg hune, hdrop, hsp]

theorem macroTokLen_inv :
    ∀ (s : List Char) (n : Nat), macroTokLen s = some n →
      ∃ us sp rest, s = '.' :: (us ++ (List.replicate sp ' ' ++ rest)) ∧
        ¬us = [] ∧ us.all isUpperAZ = true ∧ n = 1 + us.length + sp ∧
        (∀ c, rest.head? = some c → ¬c = ' ' ∧ (sp = 0 → isUpperAZ c = false)) := by
  intro s n h
  cases s with
  | nil => simp [macroTokLen] at h
  | cons a r =>
    have h2 : (if a = '.' then
        (if upRun r = 0 then none
         else some (1 + upRun r + spacesLen (r.drop (upRun r))))
        else none) = some n := h
    clear h
    by_cases ha : a = '.'
    · rw [if_pos ha] at h2
      by_cases hu : upRun r = 0
      · rw [if_pos hu] at h2
        simp at h2
      · rw [if_neg hu] at h2
        simp only [Option.some.injEq] at h2
        refine ⟨r.take (upRun r), spacesLen (r.drop (upRun r)),
          (r.drop (upRun r)).drop (spacesLen (r.drop (upRun r))), ?_, ?_, ?_, ?_, ?_⟩
        · rw [ha]
          simp only [List.cons.injEq, true_and]
          calc r = r.take (upRun r) ++ r.drop (upRun r) := (List.take_append_drop _ r).symm
            _ = r.take (upRun r) ++ (List.replicate (spacesLen (r.drop (upRun r))) ' ' ++
                (r.drop (upRun r)).drop (spacesLen (r.drop (upRun r)))) := by
                rw [← spacesLen_decomp (r.drop (upRun r))]
        · intro hempty
          have : (r.take (upRun r)).length = 0 := by rw [hempty]; rfl
          rw [List.length_take] at this
          have := upRun_le r
          omega
        · exact upRun_take_all r
        · have hlt : (r.take (upRun r)).length = upRun r := by
            rw [List.length_take]
            have := upRun_le r
            omega
          rw [hlt]
          omega
        · intro c hc
          constructor
          · exact spacesLen_drop_head (r.drop (upRun r)) c hc
          · intro hsp0
            rw [hsp0, List.drop_zero] at hc
            exact upRun_drop_head r c hc
    · rw [if_neg ha] at h2
      simp at h2

theorem stripScan_perline :
    ∀ (n : Nat) (s : List Char), s.length ≤ n →
      (stripScan (s.length + 1) true s = joinLines ((splitOnNl s).map stripTok)) ∧
      (∀ l ls, splitOnNl s = l :: ls →
        stripScan (s.length + 1) false s = joinLines (l :: ls.map stripTok)) := by
  intro n
  induction n with
  | zero =>
    intro s hlen
    have hs : s = [] := by
      cases s with
      | nil => rfl
      | cons c r => simp at hlen
    subst hs
    constructor
    · rfl
    · intro l ls h
      have h2 : ([] : List Char) :: ([] : List (List Char)) = l :: ls := h
      injection h2 with e1 e2
      rw [← e1, ← e2]
      rfl
  | succ n ih =>
    intro s hlen
    cases s with
    | nil =>
      constructor
      · rfl
      · intro l ls h
        have h2 : ([] : List Char) :: ([] : List (List Char)) = l :: ls := h
        injection h2 with e1 e2
        rw [← e1, ← e2]
        rfl
    | cons c r =>
      have hr : r.length ≤ n := by
        simp at hlen
        omega
      obtain ⟨l0, ls0, hsplit0⟩ : ∃ l0 ls0, splitOnNl r = l0 :: ls0 := by
        cases hsr : splitOnNl r with
        | nil => exact absurd hsr (splitOnChar_ne_nil '\n' r)
        | cons a b => exact ⟨a, b, rfl⟩
      constructor
      · cases htok : macroTokLen (c :: r) with
        | none =>
          have hstep : stripScan ((c :: r).length + 1) true (c :: r) =
              c :: stripScan (r.length + 1) (decide (c = '\n')) r := by
            show (match macroTokLen (c :: r) with
              | some nn => stripScan (r.length + 1) false ((c :: r).drop nn)
              | none => c :: stripScan (r.length + 1) (decide (c = '\n')) r) = _
            rw [htok]
          rw [hstep]
          by_cases hc : c = '\n'
          · subst hc
            rw [splitOnNl_cons_nl r, List.map_cons]
            have hmapne : ¬(splitOnNl r).map stripTok = [] := by
              rw [hsplit0]
              simp
            have hnil : stripTok ([] : List Char) = [] := rfl
            rw [hnil, joinLines_nil_cons _ hmapne]
            rw [show (decide (('\n' : Char) = '\n')) = true from by decide]
            rw [(ih r hr).1]
          · rw [show (decide (c = '\n')) = false from by simp [hc]]
            rw [splitOnNl_cons_other c r l0 ls0 hc hsplit0, List.map_cons]
            have hl0 : l0 = r.takeWhile notNl := splitOnNl_head r l0 ls0 hsplit0
            have htw : (c :: r).takeWhile notNl = c :: r.takeWhile notNl := by
              rw [List.takeWhile_cons, if_pos (by simp [notNl, hc])]
            have htokl : macroTokLen (c :: l0) = none := by
              rw [hl0, ← htw, macroTokLen_takeWhile (c :: r)]
              exact htok
            have hstrip : stripTok (c :: l0) = c :: l0 := by
              unfold stripTok
              rw [htokl]
            rw [hstrip, joinLines_consCons]
            rw [(ih r hr).2 l0 ls0 hsplit0]
        | some m =>
          obtain ⟨us, sp, rest, hdecomp, hne, hall, hm, hrest⟩ := macroTokLen_inv (c :: r) m htok
          injection hdecomp with hc hr2
          have hstep : stripScan ((c :: r).length + 1) true (c :: r) =
              stripScan (r.length + 1) false ((c :: r).drop m) := by
            show (match macroTokLen (c :: r) with
              | some nn => stripScan (r.length + 1) false ((c :: r).drop nn)
              | none => c :: stripScan (r.length + 1) (decide (c = '\n')) r) = _
            rw [htok]
          rw [hstep]
          have hs_decomp : c :: r = ('.' :: (us ++ List.replicate sp ' ')) ++ rest := by
            rw [hc, hr2]
            simp [List.append_assoc]
          have hperlen : (('.' :: (us ++ List.replicate sp ' ')) : List Char).length = m := by
            simp [List.length_cons, List.length_append, List.length_replicate]
            omega
          have hdropm : (c :: r).drop m = rest := by
            rw [hs_decomp, ← hperlen]
            exact List.drop_left _ _
          rw [hdropm]
          have husne : 0 < us.length := by
            cases us with
            | nil => exact absurd rfl hne
            | cons a t => simp
          have hrlen : r.length = us.length + sp + rest.length := by
            rw [hr2]
            simp [List.length_append, List.length_replicate]
            omega
          rw [stripScan_fuel n (r.length + 1) false rest (by omega) (by omega)]
          obtain ⟨lr, lsr, hsplitr⟩ : ∃ lr lsr, splitOnNl rest = lr :: lsr := by
            cases hsr : splitOnNl rest with
            | nil => exact absurd hsr (splitOnChar_ne_nil '\n' rest)
            | cons a b => exact ⟨a, b, rfl⟩
          rw [(ih rest (by omega)).2 lr lsr hsplitr]
          have husq : us.all notNl = true := by
            rw [List.all_eq_true] at hall ⊢
            intro x hx
            exact upper_notNl x (hall x hx)
          have hrepq : (List.replicate sp ' ').all notNl = true := by
            rw [List.all_eq_true]
            intro x hx
            rw [List.eq_of_mem_replicate hx]
            simp [notNl]
          have hallpre : (('.' :: (us ++ List.replicate sp ' ')) : List Char).all notNl = true := by
            simp only [List.all_cons, List.all_append, Bool.and_eq_true]
            exact ⟨by simp [notNl], husq, hrepq⟩
          have hsplits : splitOnNl (c :: r) =
              (('.' :: (us ++ List.replicate sp ' ')) ++ lr) :: lsr := by
            rw [hs_decomp]
            exact splitOnNl_append_all _ rest lr lsr hallpre hsplitr
          rw [hsplits, List.map_cons]
          have hlr : lr = rest.takeWhile notNl := splitOnNl_head rest lr lsr hsplitr
          have hlrhead : ∀ cc, lr.head? = some cc → ¬cc = ' ' ∧ (sp = 0 → isUpperAZ cc = false) := by
            intro cc hcc
            rw [hlr] at hcc
            exact hrest cc (takeWhile_head_transfer notNl rest cc hcc)
          have htokpre : macroTokLen (('.' :: (us ++ List.replicate sp ' ')) ++ lr) = some m := by
            have heq : (('.' :: (us ++ List.replicate sp ' ')) ++ lr) =
                '.' :: (us ++ (List.replicate sp ' ' ++ lr)) := by
              simp [List.append_assoc]
            rw [heq, macroTokLen_build us sp lr hne hall hlrhead, hm]
          have hstrippre : stripTok (('.' :: (us ++ List.replicate sp ' ')) ++ lr) = lr := by
            unfold stripTok
            rw [htokpre]
            show List.drop m (('.' :: (us ++ List.replicate sp ' ')) ++ lr) = lr
            rw [← hperlen]
            exact List.drop_left _ _
          rw [hstrippre]
      · intro l ls h
        by_cases hc : c = '\n'
        · subst hc
          rw [splitOnNl_cons_nl r] at h
          injection h with e1 e2
          have hstep : stripScan ((('\n' : Char) :: r).length + 1) false ('\n' :: r) =
              '\n' :: stripScan (r.length + 1) (decide (('\n' : Char) = '\n')) r := rfl
          rw [hstep, ← e1, ← e2]
          have hmapne : ¬(splitOnNl r).map stripTok = [] := by
            rw [hsplit0]
            simp
          rw [joinLines_nil_cons _ hmapne]
          rw [show (decide (('\n' : Char) = '\n')) = true from by decide]
          rw [(ih r hr).1]
        · rw [splitOnNl_cons_other c r l0 ls0 hc hsplit0] at h
          injection h with e1 e2
          have hstep : stripScan ((c :: r).length + 1) false (c :: r) =
              c :: stripScan (r.length + 1) (decide (c = '\n')) r := rfl
          rw [hstep, ← e1, ← e2]
          rw [show (decide (c = '\n')) = false from by simp [hc]]
          rw [(ih r hr).2 l0 ls0 hsplit0]
          rw [joinLines_consCons]

/-- The macro stripper, described per line: split the text into lines, take the
leading macro token off every line that has one, and rejoin with newlines. -/
theorem stripMacros_perline :
    ∀ s : List Char, stripMacros s = joinLines ((splitOnNl s).map stripTok) := by
  intro s
  exact (stripScan_perline s.length s (le_refl _)).1

/-- Claim C3, amended: for every located section the extracted body is the slice
from the section start up to the start of the next SH macro found by iteration,
or to the end of the document, with each line that matches the macro line
pattern keeping everything but its macro token (only the token is removed, not
the whole line), and surrounding whitespace trimmed. -/
theorem C3_token_strip :
    ∀ (d : List Char) (names : List (List Char)) (st : Nat),
      findSection d names = some st →
      getSection d names =
        trimSpace (joinLines ((splitOnNl (sectionSlice d st)).map stripTok)) := by
  intro d names st h
  have hL : getSection d names = (match sectionStop d (d.length + 1) st with
      | none => trimSpace (stripMacros (d.drop st))
      | some stop => trimSpace (stripMacros ((d.drop st).take (stop - st)))) := by
    unfold getSection
    rw [h]
  rw [hL]
  unfold sectionSlice
  cases hstop : sectionStop d (d.length + 1) st with
  | none =>
    show trimSpace (stripMacros (d.drop st)) =
      trimSpace (joinLines ((splitOnNl (d.drop st)).map stripTok))
    rw [stripMacros_perline]
  | some stop =>
    show trimSpace (stripMacros ((d.drop st).take (stop - st))) =
      trimSpace (joinLines ((splitOnNl ((d.drop st).take (stop - st))).map stripTok))
    rw [stripMacros_perline]

/-- Document for the C3 counterexample: the NAME section body holds a macro line
with trailing text. -/
def dC3 : List Char := str ".SH NAME\nfoo\n.B bar\n"

/-- Counterexample for claim C3: the extracted body keeps the tail of the macro
line, whereas removing the matching line entirely, as the claim states, would
drop it. -/
theorem C3_counterexample :
    getSection dC3 [str "NAME"] = str "foo\nbar" ∧
    trimSpace (stripLinesWhole (sectionSlice dC3 8)) = str "foo" ∧
    ¬(str "foo\nbar" = str "foo") := by
  decide

/-- Witness for claim C3 at the counterexample document. -/
theorem C3_witness :
    getSection dC3 [str "NAME"] =
      trimSpace (joinLines ((splitOnNl (sectionSlice dC3 8)).map stripTok)) :=
  C3_token_strip dC3 [str "NAME"] 8 (by decide)

end Goman
